import Mathlib

/-!
Verification of the transcript segmentation / phrase alignment / vocabulary
timing core (`lib/analysis.py`, `lib/utils.py`) of the repository.

Shallow embedding conventions:
- Python floats are modelled as exact rationals (`ℚ`).
- A Deepgram word record `{punctuated_word/word, start, end}` is modelled as
  `Word` with a single `text` field (the code always reads
  `w.get("punctuated_word", w.get("word", ""))`) and `stop` for the Python
  key `end` (a Lean keyword).
- Python lists are `List`, dicts keyed by strings are association lists.
- The similarity scorer `rapidfuzz.fuzz.ratio` is an external library, not
  repository code; it is modelled from the spec (see `ratio` below).
-/

/-! ### lib/utils.py — Normalizer -/

/-- Whitespace characters: ASCII whitespace matched by the regex class `\s`
plus the ideographic space `　` listed explicitly in the pattern
`[「」『』（）\(\)\s　]` (plus the common Unicode spaces Python's `\s`
also matches; any superset containing every char `strip` removes works the
same way for the properties proved here). -/
def isWhiteChar (c : Char) : Bool :=
  c == ' ' || c == '\t' || c == '\n' || c == '\r' || c == '\x0b' || c == '\x0c' ||
  c == ' ' || c == '　'

/-- Characters removed by `re.sub(r'[「」『』（）\(\)\s　]', '', text)` in
`normalize_japanese` (lib/utils.py line 13). -/
def removedChar (c : Char) : Bool :=
  c == '「' || c == '」' || c == '『' || c == '』' || c == '（' || c == '）' ||
  c == '(' || c == ')' || isWhiteChar c

/-- Python `str.strip()` on a char list: drop whitespace from both ends. -/
def stripChars (l : List Char) : List Char :=
  ((l.dropWhile isWhiteChar).reverse.dropWhile isWhiteChar).reverse

/-- Models `normalize_japanese` (lib/utils.py lines 8–13): `if not text: return ""`,
then remove the bracket/whitespace character class and `strip()`. -/
def normalize_japanese (text : String) : String :=
  if text = "" then ""
  else String.mk (stripChars (text.data.filter (fun c => !(removedChar c))))

/-- The full-width→ASCII digit translation table `_FULL2HALF`
(lib/utils.py line 17). -/
def fullDigits : List (Char × Char) :=
  [('０','0'), ('１','1'), ('２','2'), ('３','3'), ('４','4'),
   ('５','5'), ('６','6'), ('７','7'), ('８','8'), ('９','9')]

/-- Python `str.translate(_FULL2HALF)` on one character: characters outside the
table map to themselves. -/
def full2half (c : Char) : Char :=
  ((fullDigits.find? (fun p => p.1 == c)).map (fun p => p.2)).getD c

/-- Models `norm_for_alignment` (lib/utils.py lines 20–23):
`normalize_japanese(text).translate(_FULL2HALF)`. -/
def norm_for_alignment (text : String) : String :=
  String.mk ((normalize_japanese text).data.map full2half)

/-! Helper lemmas for idempotence of the normalizer. -/

theorem isWhite_removed {c : Char} (h : isWhiteChar c = true) : removedChar c = true := by
  simp [removedChar, h]

theorem stripChars_of_clean {l : List Char} (h : ∀ c ∈ l, isWhiteChar c = false) :
    stripChars l = l := by
  have h1 : l.dropWhile isWhiteChar = l := by
    cases l with
    | nil => rfl
    | cons a t =>
      rw [List.dropWhile_cons]
      simp [h a (by simp)]
  have h2 : l.reverse.dropWhile isWhiteChar = l.reverse := by
    cases hr : l.reverse with
    | nil => rfl
    | cons a t =>
      rw [List.dropWhile_cons]
      have ha : a ∈ l := by
        have : a ∈ l.reverse := by rw [hr]; simp
        simpa using this
      simp [h a ha]
  simp [stripChars, h1, h2]

theorem mem_stripChars {l : List Char} {c : Char} (h : c ∈ stripChars l) : c ∈ l := by
  have s1 : ∀ (m : List Char), m.dropWhile isWhiteChar <:+ m := fun m =>
    List.dropWhile_suffix _
  have h1 : c ∈ (l.dropWhile isWhiteChar).reverse.dropWhile isWhiteChar := by
    simpa [stripChars] using h
  have h2 : c ∈ (l.dropWhile isWhiteChar).reverse := (s1 _).subset h1
  have h3 : c ∈ l.dropWhile isWhiteChar := by simpa using h2
  exact (s1 l).subset h3

theorem normalize_japanese_clean (s : String) :
    ∀ c ∈ (normalize_japanese s).data, removedChar c = false := by
  intro c hc
  by_cases hs : s = ""
  · simp [normalize_japanese, hs] at hc
  · simp only [normalize_japanese, if_neg hs] at hc
    have hc' : c ∈ stripChars (s.data.filter (fun c => !(removedChar c))) := hc
    have hmem : c ∈ s.data.filter (fun c => !(removedChar c)) := mem_stripChars hc'
    have := List.of_mem_filter hmem
    simpa using this

theorem normalize_japanese_of_clean {s : String}
    (h : ∀ c ∈ s.data, removedChar c = false) : normalize_japanese s = s := by
  by_cases hs : s = ""
  · simp [normalize_japanese, hs]
  · simp only [normalize_japanese, if_neg hs]
    have hf : s.data.filter (fun c => !(removedChar c)) = s.data :=
      List.filter_eq_self.mpr (by intro c hc; simp [h c hc])
    have hw : ∀ c ∈ s.data, isWhiteChar c = false := by
      intro c hc
      cases hx : isWhiteChar c
      · rfl
      · have := isWhite_removed hx
        rw [h c hc] at this
        exact absurd this (by simp)
    rw [hf, stripChars_of_clean hw]

theorem full2half_cases (c : Char) :
    full2half c = c ∨
    full2half c ∈ ['0','1','2','3','4','5','6','7','8','9'] := by
  unfold full2half
  cases hf : fullDigits.find? (fun p => p.1 == c) with
  | none => left; rfl
  | some p =>
    right
    have hp : p ∈ fullDigits := List.mem_of_find?_eq_some hf
    have hr : ((some p).map (fun q => q.2)).getD c = p.2 := rfl
    rw [hr]
    fin_cases hp <;> decide

theorem full2half_clean {c : Char} (h : removedChar c = false) :
    removedChar (full2half c) = false := by
  rcases full2half_cases c with hc | hc
  · rw [hc]; exact h
  · simp only [List.mem_cons, List.not_mem_nil, or_false] at hc
    rcases hc with h0 | h0 | h0 | h0 | h0 | h0 | h0 | h0 | h0 | h0 <;>
      rw [h0] <;> decide

theorem full2half_idem (c : Char) : full2half (full2half c) = full2half c := by
  rcases full2half_cases c with hc | hc
  · rw [hc, hc]
  · simp only [List.mem_cons, List.not_mem_nil, or_false] at hc
    rcases hc with h0 | h0 | h0 | h0 | h0 | h0 | h0 | h0 | h0 | h0 <;>
      rw [h0] <;> decide

/-- C9, part 1: `normalize_japanese` is idempotent. -/
theorem normalize_japanese_idem (s : String) :
    normalize_japanese (normalize_japanese s) = normalize_japanese s :=
  normalize_japanese_of_clean (normalize_japanese_clean s)

/-- C9: For every string x, `normalize_japanese (normalize_japanese x) =
normalize_japanese x`, and likewise `norm_for_alignment` (which additionally
maps full-width digits ０–９ to ASCII 0–9) is idempotent. -/
theorem c9_normalization_idempotent (x : String) :
    normalize_japanese (normalize_japanese x) = normalize_japanese x ∧
    norm_for_alignment (norm_for_alignment x) = norm_for_alignment x := by
  refine ⟨normalize_japanese_idem x, ?_⟩
  have hdata : ∀ (t : String), (String.mk t.data) = t := by intro t; cases t; rfl
  have hclean : ∀ c ∈ (norm_for_alignment x).data, removedChar c = false := by
    intro c hc
    simp only [norm_for_alignment] at hc
    have hc' : c ∈ (normalize_japanese x).data.map full2half := hc
    obtain ⟨a, ha, hfa⟩ := List.mem_map.mp hc'
    rw [← hfa]
    exact full2half_clean (normalize_japanese_clean x a ha)
  have hnorm : normalize_japanese (norm_for_alignment x) = norm_for_alignment x :=
    normalize_japanese_of_clean hclean
  simp only [norm_for_alignment] at *
  rw [hnorm]
  simp only [norm_for_alignment]
  congr 1
  rw [List.map_map]
  apply List.map_congr_left
  intro a _
  exact full2half_idem a

/-! ### Word records and the similarity scorer -/

/-- A Deepgram word record: `text` models
`w.get("punctuated_word", w.get("word", ""))`, `stop` models the key `end`. -/
structure Word where
  text : String
  start : ℚ
  stop : ℚ
deriving DecidableEq, Repr

def defaultWord : Word := ⟨"", 0, 0⟩

/-- Python `words[i]` (total; every use below is guarded so the index is in
bounds exactly where the Python code indexes). -/
def wget (ws : List Word) (i : Nat) : Word := (ws[i]?).getD defaultWord

/-- Python `words[-1]`. -/
def wlast (ws : List Word) : Word := wget ws (ws.length - 1)

/-- Longest common subsequence length, fuelled so that it is structurally
recursive (kernel-reducible); each recursive call shrinks the combined
length, so `fuel = |a| + |b|` always suffices. -/
def lcsLenF : Nat → List Char → List Char → Nat
  | 0, _, _ => 0
  | _ + 1, [], _ => 0
  | _ + 1, _ :: _, [] => 0
  | fuel + 1, a :: as, b :: bs =>
    if a = b then 1 + lcsLenF fuel as bs
    else max (lcsLenF fuel as (b :: bs)) (lcsLenF fuel (a :: as) bs)

/-- Longest common subsequence length of two character lists. -/
def lcsLen (a b : List Char) : Nat := lcsLenF (a.length + b.length) a b

/-- Modelled from the spec: `rapidfuzz.fuzz.ratio`, the external similarity
scorer (not repository code), "an edit-distance-derived string similarity
score scaled 0–100" — the InDel-normalized similarity
`100 · (1 − dist/(|a|+|b|))` with `dist = |a|+|b| − 2·LCS`, i.e.
`200·LCS/(|a|+|b|)`; two empty strings score 100. -/
def ratio (a b : List Char) : ℚ :=
  if a.length + b.length = 0 then 100
  else (200 * (lcsLen a b : ℚ)) / ((a.length : ℚ) + (b.length : ℚ))

/-! ### lib/analysis.py lines 353–399 — `_align_fuzzy` -/

/-- The aligner's return record `(start_time, end_time, match_score,
end_word_index)`. -/
structure AlignResult where
  start : ℚ
  stop : ℚ
  score : ℚ
  nextIndex : Nat
deriving DecidableEq, Repr

/-- Python `window_text`: `"".join(normalize_japanese(w.text) for w in all_words[si:ei])`. -/
def windowText (ws : List Word) (si ei : Nat) : String :=
  ((ws.drop si).take (ei - si)).foldl (fun a w => a ++ normalize_japanese w.text) ""

/-- The `(si, ei)` pairs visited by the two nested loops of `_align_fuzzy`
(lines 365–366: `for window_size in range(1, n - start_idx + 1): for si in
range(start_idx, n - window_size + 1)`), in iteration order, with `ei`
the exclusive window end `si + window_size`. -/
def candPairs (n s : Nat) : List (Nat × Nat) :=
  (List.range' 1 (n - s)).flatMap
    (fun w => (List.range' s (n - s - w + 1)).map (fun si => (si, si + w)))

/-- One iteration of the `_align_fuzzy` search loop (lines 368–383): skip an
empty window text, otherwise score the window, apply the length bonus
`score * (1 + 0.01 * len(window_text))` and keep it if it strictly beats the
best so far. The accumulator is `(best_score, best_si, best_ei)` with
`best_ei` the inclusive end index. -/
def candStep (phrase : String) (ws : List Word) (acc : ℚ × Nat × Nat)
    (pr : Nat × Nat) : ℚ × Nat × Nat :=
  let wt := windowText ws pr.1 pr.2
  if wt = "" then acc
  else
    let sc := ratio phrase.data wt.data
    let adj := sc * (1 + (wt.data.length : ℚ) / 100)
    if acc.1 < adj then (adj, pr.1, pr.2 - 1) else acc

/-- The full best-window search of `_align_fuzzy`, starting from
`best_score = 0, best_si = best_ei = start_idx` (lines 360–383). -/
def fuzzyBest (phrase : String) (ws : List Word) (s : Nat) : ℚ × Nat × Nat :=
  (candPairs ws.length s).foldl (candStep phrase ws) (0, s, s)

/-- Models `_align_fuzzy` (lines 353–399). On success (`best_score >= min_score and
best_ei < n`) it returns the best window's span and the *adjusted* best
score with cursor `best_ei + 1`; otherwise the degraded full-remainder
span. -/
def align_fuzzy (normalized_phrase : String) (all_words : List Word)
    (start_idx : Nat) (min_score : ℚ) : AlignResult :=
  let n := all_words.length
  let best := fuzzyBest normalized_phrase all_words start_idx
  if min_score ≤ best.1 ∧ best.2.2 < n then
    ⟨(wget all_words best.2.1).start, (wget all_words best.2.2).stop,
      best.1, best.2.2 + 1⟩
  else
    ⟨(wget all_words start_idx).start, (wlast all_words).stop, 0, n⟩

/-! ### lib/analysis.py lines 402–447 — `_align_fallback` -/

/-- Tests whether `pat` begins `hay`, written out for char lists. -/
def leadsWith : List Char → List Char → Bool
  | [], _ => true
  | _ :: _, [] => false
  | p :: ps, h :: hs => p == h && leadsWith ps hs

/-- Python `full_text.find(norm_phrase)`: index of the first occurrence, or
`none` (Python returns -1). -/
def findSub (hay pat : List Char) : Option Nat :=
  if leadsWith pat hay then some 0
  else
    match hay with
    | [] => none
    | _ :: t => (findSub t pat).map (fun i => i + 1)

/-- The character-offset→word-index loop of `_align_fallback` (lines
421–431): walk `search_words` accumulating normalized lengths `cp`; record
the word containing `char_start` in `swi`, and return `(start_wi, end_wi)`
when the word containing `char_end` is reached (the Python `break`); `none`
models falling through with `start_wi`/`end_wi` unset. -/
def locateLoop : List Word → Nat → Option Nat → Nat → Nat → Nat → Option (Nat × Nat)
  | [], _, _, _, _, _ => none
  | w :: rest, i, swi, cp, cs, ce =>
    let wt := normalize_japanese w.text
    let ncp := cp + wt.data.length
    let swi' := if swi = none ∧ cp ≤ cs ∧ cs < ncp then some i else swi
    if cp ≤ ce ∧ ce < ncp then
      match swi' with
      | some s0 => some (s0, i)
      | none => none
    else locateLoop rest (i + 1) swi' ncp cs ce

/-- Models `_align_fallback` (lines 402–447): exact substring search over the
normalized concatenation of `all_words[start_idx:]`; on a hit, map the
character range back to word indices and return that span with score 100;
otherwise the degraded full-remainder span. -/
def align_fallback (normalized_phrase : String) (all_words : List Word)
    (start_idx : Nat) : AlignResult :=
  let search_words := all_words.drop start_idx
  let full_text := search_words.foldl (fun a w => a ++ normalize_japanese w.text) ""
  if full_text = "" then ⟨0, 0, 0, start_idx⟩
  else
    match findSub full_text.data normalized_phrase.data with
    | some pos =>
      match locateLoop search_words 0 none 0 pos (pos + normalized_phrase.data.length - 1) with
      | some (swi, ewi) =>
        ⟨(wget all_words (start_idx + swi)).start,
          (wget all_words (start_idx + ewi)).stop, 100, start_idx + ewi + 1⟩
      | none =>
        ⟨(wget all_words start_idx).start, (wlast all_words).stop, 0, all_words.length⟩
    | none =>
      ⟨(wget all_words start_idx).start, (wlast all_words).stop, 0, all_words.length⟩

/-! ### lib/analysis.py lines 318–350 — `align_gpt_phrase_to_deepgram_words` -/

/-- The top-level phrase aligner. `fuzzy_available` models the module flag
`FUZZY_MATCHING_AVAILABLE`. Guards in source order: empty phrase or word
list; phrase empty after normalization; empty `words[search_start_index:]`
(fall back to the last word's span); then the fuzzy or substring path. -/
def align_gpt_phrase_to_deepgram_words (fuzzy_available : Bool)
    (gpt_phrase_text : String) (deepgram_words : List Word)
    (search_start_index : Nat) (min_match_score : ℚ) : AlignResult :=
  if gpt_phrase_text = "" ∨ deepgram_words = [] then
    ⟨0, 0, 0, search_start_index⟩
  else
    let norm_phrase := normalize_japanese gpt_phrase_text
    if norm_phrase = "" then ⟨0, 0, 0, search_start_index⟩
    else if deepgram_words.length ≤ search_start_index then
      ⟨(wlast deepgram_words).start, (wlast deepgram_words).stop, 0,
        deepgram_words.length⟩
    else if fuzzy_available then
      align_fuzzy norm_phrase deepgram_words search_start_index min_match_score
    else
      align_fallback norm_phrase deepgram_words search_start_index

/-- The caller loop of `analyze_japanese_segment` (lines 588–599): one
aligner call per phrase, threading each returned `nextIndex` as the next
call's `search_start_index`. -/
def alignSeq (fuzzy_available : Bool) (phrases : List String)
    (ws : List Word) (idx : Nat) (m : ℚ) : List AlignResult :=
  match phrases with
  | [] => []
  | p :: ps =>
    let r := align_gpt_phrase_to_deepgram_words fuzzy_available p ws idx m
    r :: alignSeq fuzzy_available ps ws r.nextIndex m

example : ratio "あ".data "あ".data = 100 := by with_unfolding_all decide
example : ratio "あ".data "ん".data = 0 := by with_unfolding_all decide
example :
    align_gpt_phrase_to_deepgram_words true "日本語です"
      [⟨"日本語です", 1/10, 9/10⟩] 0 70 = ⟨1/10, 9/10, 105, 1⟩ := by
  with_unfolding_all decide

/-! ### Generic fold invariant -/

theorem foldl_inv {α β : Type _} (P : β → Prop) (f : β → α → β) :
    ∀ (l : List α) (init : β), P init →
      (∀ b a, a ∈ l → P b → P (f b a)) → P (l.foldl f init) := by
  intro l
  induction l with
  | nil => intro init h _; exact h
  | cons x xs ih =>
    intro init h hstep
    simp only [List.foldl_cons]
    exact ih (f init x) (hstep init x (by simp) h)
      (fun b a ha hb => hstep b a (by simp [ha]) hb)

/-! ### Bounds for the fuzzy search loop -/

theorem candPairs_mem {n s : Nat} {pr : Nat × Nat} (h : pr ∈ candPairs n s) :
    s ≤ pr.1 ∧ pr.1 < pr.2 ∧ pr.2 ≤ n := by
  simp only [candPairs, List.mem_flatMap, List.mem_map] at h
  obtain ⟨w, hw, si, hsi, hpr⟩ := h
  rw [List.mem_range'_1] at hw
  rw [List.mem_range'_1] at hsi
  subst hpr
  omega

theorem fuzzyBest_inv (p : String) (ws : List Word) (s : Nat) :
    s ≤ (fuzzyBest p ws s).2.1 ∧ (fuzzyBest p ws s).2.1 ≤ (fuzzyBest p ws s).2.2 := by
  have := foldl_inv (fun acc : ℚ × Nat × Nat => s ≤ acc.2.1 ∧ acc.2.1 ≤ acc.2.2)
    (candStep p ws) (candPairs ws.length s) (0, s, s) (by simp)
    (by
      intro b pr hpr hb
      obtain ⟨h1, h2, h3⟩ := candPairs_mem hpr
      simp only [candStep]
      split
      · exact hb
      · split
        · constructor
          · simpa using h1
          · simp only []
            omega
        · exact hb)
  exact this

/-! ### Bounds for the fallback locate loop -/

theorem locateLoop_bounds :
    ∀ (ws : List Word) (i : Nat) (swi : Option Nat) (cp cs ce sw ew : Nat),
      locateLoop ws i swi cp cs ce = some (sw, ew) →
      i ≤ ew ∧ ew < i + ws.length := by
  intro ws
  induction ws with
  | nil => intro i swi cp cs ce sw ew h; simp [locateLoop] at h
  | cons w rest ih =>
    intro i swi cp cs ce sw ew h
    simp only [locateLoop] at h
    split at h
    · split at h
      · simp only [Option.some.injEq, Prod.mk.injEq] at h
        obtain ⟨_, h2⟩ := h
        subst h2
        simp only [List.length_cons]
        omega
      · exact absurd h (by simp)
    · have := ih (i + 1) _ _ cs ce sw ew h
      simp only [List.length_cons]
      omega

/-! ### C10 — cursor monotonicity -/

theorem align_fuzzy_next (p : String) (ws : List Word) (s : Nat) (m : ℚ)
    (hs : s ≤ ws.length) :
    s ≤ (align_fuzzy p ws s m).nextIndex ∧
    (align_fuzzy p ws s m).nextIndex ≤ ws.length := by
  have hinv := fuzzyBest_inv p ws s
  simp only [align_fuzzy]
  split
  · rename_i hcond
    simp only []
    omega
  · simp only []
    omega

theorem align_fallback_next (p : String) (ws : List Word) (s : Nat)
    (hs : s ≤ ws.length) :
    s ≤ (align_fallback p ws s).nextIndex ∧
    (align_fallback p ws s).nextIndex ≤ ws.length := by
  simp only [align_fallback]
  split
  · simp only []
    omega
  · split
    · rename_i pos hfind
      split
      · rename_i swi ewi hloc
        have hb := locateLoop_bounds _ 0 none 0 _ _ swi ewi hloc
        rw [List.length_drop] at hb
        simp only []
        omega
      · simp only []
        omega
    · simp only []
      omega

/-- C10: with `0 ≤ searchStartIndex ≤ len(words)` (indices are `Nat`, so the
lower bound is inherent), the aligner's returned `nextIndex` satisfies
`searchStartIndex ≤ nextIndex ≤ len(words)` on the fuzzy path, the
substring-fallback path, and every degraded or empty-input path. -/
theorem c10_cursor_bounds (fz : Bool) (p : String) (ws : List Word)
    (idx : Nat) (m : ℚ) (h : idx ≤ ws.length) :
    idx ≤ (align_gpt_phrase_to_deepgram_words fz p ws idx m).nextIndex ∧
    (align_gpt_phrase_to_deepgram_words fz p ws idx m).nextIndex ≤ ws.length := by
  simp only [align_gpt_phrase_to_deepgram_words]
  split
  · exact ⟨le_refl _, h⟩
  · split
    · exact ⟨le_refl _, h⟩
    · split
      · exact ⟨h, le_refl _⟩
      · split
        · exact align_fuzzy_next _ ws idx m h
        · exact align_fallback_next _ ws idx h

/-- C10 witness: a concrete in-bounds call on each path flag. -/
theorem c10_cursor_bounds_witness :
    (0 ≤ ([⟨"あ", 0, 1⟩] : List Word).length ∧
      0 ≤ (align_gpt_phrase_to_deepgram_words true "あ" [⟨"あ", 0, 1⟩] 0 70).nextIndex ∧
      (align_gpt_phrase_to_deepgram_words true "あ" [⟨"あ", 0, 1⟩] 0 70).nextIndex ≤
        ([⟨"あ", 0, 1⟩] : List Word).length) ∧
    (0 ≤ (align_gpt_phrase_to_deepgram_words false "あ" [⟨"あ", 0, 1⟩] 0 70).nextIndex ∧
      (align_gpt_phrase_to_deepgram_words false "あ" [⟨"あ", 0, 1⟩] 0 70).nextIndex ≤
        ([⟨"あ", 0, 1⟩] : List Word).length) :=
  ⟨⟨by decide, c10_cursor_bounds true "あ" [⟨"あ", 0, 1⟩] 0 70 (by decide)⟩,
    c10_cursor_bounds false "あ" [⟨"あ", 0, 1⟩] 0 70 (by decide)⟩

/-! ### C4 — match score and the acceptance test -/

/-- C4 counterexample: the claim "match_score lies in 0–100, and the
acceptance test compares the best *raw* similarity score against minScore"
is false on both counts. A perfect 5-character match returns the
length-adjusted score `100·(1+0.05) = 105 > 100`; and a window whose raw
score `200/3 ≈ 66.7` is *below* `minScore = 67` is still accepted because
its adjusted score `202/3 ≈ 67.3` is compared instead, returning `202/3`
rather than the degraded score 0. -/
theorem c4_counterexample :
    (align_gpt_phrase_to_deepgram_words true "日本語です"
        [⟨"日本語です", 1/10, 9/10⟩] 0 70).score = 105 ∧
    ¬ (align_gpt_phrase_to_deepgram_words true "日本語です"
        [⟨"日本語です", 1/10, 9/10⟩] 0 70).score ≤ 100 ∧
    ratio "あい".data "あ".data < 67 ∧
    (align_gpt_phrase_to_deepgram_words true "あい"
        [⟨"あ", 1/2, 1⟩] 0 67) = ⟨1/2, 1, 202/3, 1⟩ := by
  with_unfolding_all decide

/-- C4 amended: on the fuzzy path, for `minScore ≥ 0` the returned
`match_score` is either 0 (empty-input and degraded paths) or the
length-*adjusted* best score, which the acceptance test compares against
`minScore` — so it is at least `minScore` but may exceed 100. -/
theorem c4_score_amended (p : String) (ws : List Word) (idx : Nat) (m : ℚ)
    (_hm : 0 ≤ m) :
    (align_gpt_phrase_to_deepgram_words true p ws idx m).score = 0 ∨
    m ≤ (align_gpt_phrase_to_deepgram_words true p ws idx m).score := by
  simp only [align_gpt_phrase_to_deepgram_words]
  split
  · left; rfl
  · split
    · left; rfl
    · split
      · left; rfl
      · split
        · simp only [align_fuzzy]
          split
          · rename_i hcond
            right
            exact hcond.1
          · left; rfl
        · simp_all

/-- C4 amended witness: a concrete accepted call whose score (105) is the
adjusted score and is ≥ minScore = 70. -/
theorem c4_score_amended_witness :
    0 ≤ (70 : ℚ) ∧
    ((align_gpt_phrase_to_deepgram_words true "日本語です"
        [⟨"日本語です", 1/10, 9/10⟩] 0 70).score = 0 ∨
      (70 : ℚ) ≤ (align_gpt_phrase_to_deepgram_words true "日本語です"
        [⟨"日本語です", 1/10, 9/10⟩] 0 70).score) :=
  ⟨by norm_num,
    c4_score_amended "日本語です" [⟨"日本語です", 1/10, 9/10⟩] 0 70 (by norm_num)⟩

/-! ### C5 — degraded full-remainder fallback -/

/-- C5 counterexample: a phrase that normalizes to empty (here `"（）"`,
which the normalizer strips entirely) against a non-empty word array does
*not* return the degraded full-remainder span
`(words[searchStartIndex].start, words[last].end, 0, len(words))`; it
returns `(0, 0, 0, searchStartIndex)` without advancing the cursor. -/
theorem c5_counterexample :
    (align_gpt_phrase_to_deepgram_words true "（）" [⟨"あ", 5, 6⟩] 0 70)
      = ⟨0, 0, 0, 0⟩ ∧
    (⟨0, 0, 0, 0⟩ : AlignResult) ≠ ⟨5, 6, 0, 1⟩ := by
  with_unfolding_all decide

/-- C5 amended: for every phrase whose normalized text is non-empty and
every non-empty word array with `searchStartIndex < len(words)`, when no
candidate window's (adjusted) score reaches `minScore` the fuzzy aligner
returns the degraded full-remainder span
`(words[searchStartIndex].start, words[last].end, 0, len(words))` — it
never raises (the embedding is total). A phrase that normalizes to empty
instead returns `(0, 0, 0, searchStartIndex)`. -/
theorem c5_degraded_fallback (p : String) (ws : List Word) (idx : Nat) (m : ℚ)
    (hw : ws ≠ []) (hidx : idx < ws.length)
    (hp : p ≠ "") (hnorm : normalize_japanese p ≠ "")
    (hbest : (fuzzyBest (normalize_japanese p) ws idx).1 < m) :
    align_gpt_phrase_to_deepgram_words true p ws idx m =
      ⟨(wget ws idx).start, (wlast ws).stop, 0, ws.length⟩ := by
  simp only [align_gpt_phrase_to_deepgram_words]
  rw [if_neg (by simp [hp, hw])]
  rw [if_neg hnorm]
  rw [if_neg (by omega)]
  rw [if_pos trivial]
  simp only [align_fuzzy]
  rw [if_neg (by intro hc; exact absurd hc.1 (not_le.mpr hbest))]

/-- C5 witness: a phrase with zero similarity to the sole remaining word
really does get the full remaining span `(5, 6, 0, 1)`. -/
theorem c5_degraded_fallback_witness :
    (([⟨"あ", 5, 6⟩] : List Word) ≠ [] ∧ 0 < ([⟨"あ", 5, 6⟩] : List Word).length ∧
      ("ん" : String) ≠ "" ∧ normalize_japanese "ん" ≠ "" ∧
      (fuzzyBest (normalize_japanese "ん") [⟨"あ", 5, 6⟩] 0).1 < 70) ∧
    align_gpt_phrase_to_deepgram_words true "ん" [⟨"あ", 5, 6⟩] 0 70 =
      ⟨(wget [⟨"あ", 5, 6⟩] 0).start, (wlast [⟨"あ", 5, 6⟩]).stop, 0,
        ([⟨"あ", 5, 6⟩] : List Word).length⟩ :=
  ⟨⟨by decide, by decide, by decide, by with_unfolding_all decide,
      by with_unfolding_all decide⟩,
    c5_degraded_fallback "ん" [⟨"あ", 5, 6⟩] 0 70 (by decide) (by decide)
      (by decide) (by with_unfolding_all decide) (by with_unfolding_all decide)⟩


/-! ### C1 — sequential alignment within a Segment -/

/-- Chronologically ordered word list: consecutive words do not overlap and
each word's span is well-formed. This is the shape of a Segment's word
slice (Deepgram word timings are monotone). -/
def sortedWords (ws : List Word) : Prop :=
  List.Chain' (fun a b => a.stop ≤ b.start) ws ∧ ∀ w ∈ ws, w.start ≤ w.stop

instance (ws : List Word) : Decidable (sortedWords ws) :=
  inferInstanceAs (Decidable (List.Chain' (fun a b : Word => a.stop ≤ b.start) ws ∧
    ∀ w ∈ ws, w.start ≤ w.stop))

theorem wget_get {ws : List Word} {i : Nat} (h : i < ws.length) :
    wget ws i = ws.get ⟨i, h⟩ := by
  simp [wget, List.getElem?_eq_getElem h]

theorem sorted_start_le_stop {ws : List Word} (hs : sortedWords ws) {i : Nat}
    (hi : i < ws.length) : (wget ws i).start ≤ (wget ws i).stop := by
  rw [wget_get hi]
  exact hs.2 _ (ws.get_mem _ _)

theorem sorted_stop_le_start {ws : List Word} (hs : sortedWords ws) :
    ∀ {j : Nat}, ∀ {i : Nat}, i < j → j < ws.length →
      (wget ws i).stop ≤ (wget ws j).start := by
  intro j
  induction j with
  | zero => intro i h _; omega
  | succ k ih =>
    intro i hij hj
    have hchain := List.chain'_iff_get.mp hs.1 k (by omega)
    rcases Nat.lt_or_ge i k with hik | hik
    · calc (wget ws i).stop ≤ (wget ws k).start := ih hik (by omega)
        _ ≤ (wget ws k).stop := sorted_start_le_stop hs (by omega)
        _ ≤ (wget ws (k + 1)).start := by
            rw [wget_get (by omega : k < ws.length), wget_get hj]; exact hchain
    · have hik' : i = k := by omega
      subst hik'
      rw [wget_get (by omega : i < ws.length), wget_get hj]
      exact hchain

theorem sorted_start_le_stop_range {ws : List Word} (hs : sortedWords ws)
    {i j : Nat} (hij : i ≤ j) (hj : j < ws.length) :
    (wget ws i).start ≤ (wget ws j).stop := by
  rcases Nat.lt_or_ge i j with h | h
  · calc (wget ws i).start ≤ (wget ws i).stop := sorted_start_le_stop hs (by omega)
      _ ≤ (wget ws j).start := sorted_stop_le_start hs h hj
      _ ≤ (wget ws j).stop := sorted_start_le_stop hs hj
  · have heq : i = j := by omega
    subst heq
    exact sorted_start_le_stop hs hj

theorem align_fuzzy_score_shape (np : String) (ws : List Word) (idx : Nat)
    (m : ℚ) (hm : 0 < m) (hsc : m ≤ (align_fuzzy np ws idx m).score) :
    ∃ si ei, idx ≤ si ∧ si ≤ ei ∧ ei < ws.length ∧
      align_fuzzy np ws idx m =
        ⟨(wget ws si).start, (wget ws ei).stop,
          (align_fuzzy np ws idx m).score, ei + 1⟩ := by
  have hinv := fuzzyBest_inv np ws idx
  by_cases hcond : m ≤ (fuzzyBest np ws idx).1 ∧ (fuzzyBest np ws idx).2.2 < ws.length
  · refine ⟨(fuzzyBest np ws idx).2.1, (fuzzyBest np ws idx).2.2,
      hinv.1, hinv.2, hcond.2, ?_⟩
    simp only [align_fuzzy, if_pos hcond]
  · exfalso
    simp only [align_fuzzy, if_neg hcond] at hsc
    linarith

/-- If an aligner call's returned score reaches a positive `minScore`, the
call went through the fuzzy success branch, so the result is the span of a
word window `[si, ei]` at or after the cursor, with `nextIndex = ei + 1`. -/
theorem align_score_ge_shape (p : String) (ws : List Word) (idx : Nat) (m : ℚ)
    (hm : 0 < m)
    (hsc : m ≤ (align_gpt_phrase_to_deepgram_words true p ws idx m).score) :
    ∃ si ei, idx ≤ si ∧ si ≤ ei ∧ ei < ws.length ∧
      align_gpt_phrase_to_deepgram_words true p ws idx m =
        ⟨(wget ws si).start, (wget ws ei).stop,
          (align_gpt_phrase_to_deepgram_words true p ws idx m).score, ei + 1⟩ := by
  by_cases h1 : p = "" ∨ ws = []
  · exfalso
    simp only [align_gpt_phrase_to_deepgram_words, if_pos h1] at hsc
    linarith
  · by_cases h2 : normalize_japanese p = ""
    · exfalso
      simp only [align_gpt_phrase_to_deepgram_words, if_neg h1, if_pos h2] at hsc
      linarith
    · by_cases h3 : ws.length ≤ idx
      · exfalso
        simp only [align_gpt_phrase_to_deepgram_words, if_neg h1, if_neg h2,
          if_pos h3] at hsc
        linarith
      · have heq : align_gpt_phrase_to_deepgram_words true p ws idx m =
            align_fuzzy (normalize_japanese p) ws idx m := by
          simp only [align_gpt_phrase_to_deepgram_words, if_neg h1, if_neg h2,
            if_neg h3, if_pos trivial]
        rw [heq] at hsc ⊢
        exact align_fuzzy_score_shape _ ws idx m hm hsc

theorem alignSeq_shapes (ws : List Word) (m : ℚ) (hs : sortedWords ws)
    (hm : 0 < m) :
    ∀ (ps : List String) (idx : Nat),
      (∀ r ∈ alignSeq true ps ws idx m, m ≤ r.score) →
      List.Pairwise (fun a b => a.stop ≤ b.start) (alignSeq true ps ws idx m) ∧
      ∀ r ∈ alignSeq true ps ws idx m, ∃ si ei, idx ≤ si ∧ si ≤ ei ∧
        ei < ws.length ∧ r.start = (wget ws si).start ∧
        r.stop = (wget ws ei).stop := by
  intro ps
  induction ps with
  | nil => intro idx _; simp [alignSeq]
  | cons p rest ih =>
    intro idx hok
    have hok0 : m ≤ (align_gpt_phrase_to_deepgram_words true p ws idx m).score :=
      hok _ (by simp [alignSeq])
    obtain ⟨si, ei, hsi, hsiei, hei, heq⟩ :=
      align_score_ge_shape p ws idx m hm hok0
    have hnext : (align_gpt_phrase_to_deepgram_words true p ws idx m).nextIndex
        = ei + 1 := by rw [heq]
    have hoktail : ∀ r ∈ alignSeq true rest ws (ei + 1) m, m ≤ r.score := by
      intro r hr
      apply hok
      simp only [alignSeq, List.mem_cons]
      right
      rw [hnext]
      exact hr
    obtain ⟨hpair, hshape⟩ := ih (ei + 1) hoktail
    constructor
    · show List.Pairwise _
        ((align_gpt_phrase_to_deepgram_words true p ws idx m) ::
          alignSeq true rest ws
            (align_gpt_phrase_to_deepgram_words true p ws idx m).nextIndex m)
      rw [hnext]
      refine List.Pairwise.cons ?_ hpair
      intro b hb
      obtain ⟨si', ei', hsi', hsiei', hei', hb1, hb2⟩ := hshape b hb
      rw [heq, hb1]
      simp only []
      exact sorted_stop_le_start hs (by omega) (by omega)
    · intro r hr
      simp only [alignSeq, List.mem_cons] at hr
      rcases hr with hr | hr
      · exact ⟨si, ei, hsi, hsiei, hei, by rw [hr, heq], by rw [hr, heq]⟩
      · rw [hnext] at hr
        obtain ⟨si', ei', hsi', hsiei', hei', hb1, hb2⟩ := hshape r hr
        exact ⟨si', ei', by omega, hsiei', hei', hb1, hb2⟩

/-- C1 counterexample: the claim as stated (for *every* Segment and phrase
list) is false. Over the chronologically sorted words
`[あ:(0,1), い:(2,3)]`, two phrases with no matching content both degrade:
the first claims the full remainder `(0,3)` and exhausts the cursor, the
second then returns the last word's span `(2,3)` — which overlaps `(0,3)`
on the non-degenerate interval `[2,3]`. -/
theorem c1_counterexample :
    (alignSeq true ["ん", "ん"] [⟨"あ", 0, 1⟩, ⟨"い", 2, 3⟩] 0 70).map
        (fun r => (r.start, r.stop)) = [(0, 3), (2, 3)] ∧
    ((2 : ℚ) < 3 ∧ (0 : ℚ) < 2) := by
  with_unfolding_all decide

/-- C1 amended: threading `nextIndex` as the next `searchStartIndex`
starting at 0, over a chronologically sorted word list and with a positive
`minScore`, *provided every call's returned `match_score` reaches
`minScore`* (i.e. no call takes a degraded fallback — those return score 0),
the resulting `(start, end)` ranges are sequential: each phrase ends no
later than the next begins (hence pairwise non-overlapping and
non-decreasing in `start`), and each range is well-formed. -/
theorem c1_sequential_nonoverlap_amended (phrases : List String)
    (ws : List Word) (m : ℚ) (hs : sortedWords ws) (hm : 0 < m)
    (hok : ∀ r ∈ alignSeq true phrases ws 0 m, m ≤ r.score) :
    List.Pairwise (fun a b => a.stop ≤ b.start)
      (alignSeq true phrases ws 0 m) ∧
    ∀ r ∈ alignSeq true phrases ws 0 m, r.start ≤ r.stop := by
  obtain ⟨hpair, hshape⟩ := alignSeq_shapes ws m hs hm phrases 0 hok
  refine ⟨hpair, ?_⟩
  intro r hr
  obtain ⟨si, ei, _, hsiei, hei, h1, h2⟩ := hshape r hr
  rw [h1, h2]
  exact sorted_start_le_stop_range hs hsiei hei

/-- C1 amended witness: two phrases that each match their word exactly are
aligned to the sequential non-overlapping ranges `(0,1)`, `(2,3)`. -/
theorem c1_sequential_nonoverlap_amended_witness :
    (sortedWords [⟨"あ", 0, 1⟩, ⟨"い", 2, 3⟩] ∧ (0 : ℚ) < 70 ∧
      (∀ r ∈ alignSeq true ["あ", "い"] [⟨"あ", 0, 1⟩, ⟨"い", 2, 3⟩] 0 70,
        (70 : ℚ) ≤ r.score)) ∧
    (List.Pairwise (fun a b => a.stop ≤ b.start)
        (alignSeq true ["あ", "い"] [⟨"あ", 0, 1⟩, ⟨"い", 2, 3⟩] 0 70) ∧
      ∀ r ∈ alignSeq true ["あ", "い"] [⟨"あ", 0, 1⟩, ⟨"い", 2, 3⟩] 0 70,
        r.start ≤ r.stop) :=
  ⟨⟨⟨by
        simp only [List.chain'_cons, List.chain'_singleton, and_true]
        norm_num,
      by intro w hw; fin_cases hw <;> norm_num⟩,
      by norm_num, by with_unfolding_all decide⟩,
    c1_sequential_nonoverlap_amended ["あ", "い"] [⟨"あ", 0, 1⟩, ⟨"い", 2, 3⟩]
      70
      ⟨by
        simp only [List.chain'_cons, List.chain'_singleton, and_true]
        norm_num,
      by intro w hw; fin_cases hw <;> norm_num⟩
      (by norm_num)
      (by with_unfolding_all decide)⟩

/-! ### lib/analysis.py lines 84–235 — Segmenter -/

/-- A Deepgram utterance hint `{start, end}`. -/
structure Utt where
  start : ℚ
  stop : ℚ
deriving DecidableEq, Repr

/-- Python `any(p in text for p in "。？！")` on the stripped word text
(lines 204–205). -/
def sentencePunct (w : Word) : Bool :=
  (stripChars w.text.data).any (fun c => c == '。' || c == '？' || c == '！')

/-- Python `"、" in text or "。" in text or "？" in text or "！" in text` on the
stripped word text (lines 221–222). -/
def splitPunct (w : Word) : Bool :=
  (stripChars w.text.data).any (fun c => c == '、' || c == '。' || c == '？' || c == '！')

/-- The inner `while` loop of `_groups_from_utterances` (lines 176–187) for
one utterance: returns (words assigned to this utterance, remaining words
from the `break` point). A word starting more than 50ms before the
utterance is skipped — dropped from every group. -/
def consumeUtt (uStart uStop : ℚ) : List Word → List Word × List Word
  | [] => ([], [])
  | w :: rest =>
    if uStart - 1/20 ≤ w.start ∧ w.start ≤ uStop + 1/20 then
      let pr := consumeUtt uStart uStop rest
      (w :: pr.1, pr.2)
    else if uStop + 1/20 < w.start then ([], w :: rest)
    else consumeUtt uStart uStop rest

/-- The outer loop of `_groups_from_utterances` plus the leftover catch
(lines 171–195): one group per utterance (skipped when empty), and any
words remaining after the last utterance form a trailing group. -/
def groupsFromUttsAux : List Utt → List Word → List (List Word)
  | [], ws => if ws = [] then [] else [ws]
  | u :: us, ws =>
    let pr := consumeUtt u.start u.stop ws
    if pr.1 = [] then groupsFromUttsAux us pr.2
    else pr.1 :: groupsFromUttsAux us pr.2

/-- Models `_groups_from_utterances` (lines 168–195). -/
def groups_from_utterances (utterances : List Utt) (all_words : List Word) :
    List (List Word) :=
  groupsFromUttsAux utterances all_words

/-- Models `_groups_from_words_fallback` (lines 198–212): split after sentence
punctuation, every 20 words, or at the final word. -/
def fallbackAux : List Word → List Word → List (List Word)
  | [], current => if current = [] then [] else [current]
  | w :: rest, current =>
    let cur := current ++ [w]
    if sentencePunct w ∨ 20 ≤ cur.length ∨ rest = [] then
      cur :: fallbackAux rest []
    else fallbackAux rest cur

def groups_from_words_fallback (all_words : List Word) : List (List Word) :=
  fallbackAux all_words []

/-- One step of the merge pass (lines 116–129), state
`(merged reversed, carry)`: a combined group of ≤ 3 words is carried
forward while nothing has been emitted, and otherwise appended to the
*previous* emitted group (`merged[-1].extend(combined)`). -/
def mergeStep (st : List (List Word) × List Word) (grp : List Word) :
    List (List Word) × List Word :=
  let combined := st.2 ++ grp
  if combined.length ≤ 3 then
    match st.1 with
    | [] => ([], combined)
    | m :: ms => ((m ++ combined) :: ms, [])
  else (combined :: st.1, [])

/-- The merge pass (lines 115–134) including the trailing-carry flush. -/
def mergePass (groups : List (List Word)) : List (List Word) :=
  let st := groups.foldl mergeStep ([], [])
  let mRev :=
    if st.2 = [] then st.1
    else
      match st.1 with
      | [] => [st.2]
      | m :: ms => (m ++ st.2) :: ms
  mRev.reverse

/-- One step of `_split_long_group`'s loop (lines 219–227), state
`(result reversed, current)`: cut after a punctuation word once the running
sub-group has ≥ 8 words, or at `max_words`. -/
def splitStep (max_words : Nat) (st : List (List Word) × List Word)
    (w : Word) : List (List Word) × List Word :=
  let current := st.2 ++ [w]
  if (splitPunct w ∧ 8 ≤ current.length) ∨ max_words ≤ current.length then
    (current :: st.1, [])
  else (st.1, current)

/-- Models `_split_long_group` (lines 215–235): the loop plus the trailing-fragment
rule — a leftover of ≤ 3 words is folded into the previous sub-group when
one exists. -/
def split_long_group (words : List Word) (max_words : Nat) : List (List Word) :=
  let st := words.foldl (splitStep max_words) ([], [])
  let rRev :=
    if st.2 = [] then st.1
    else
      if st.1 ≠ [] ∧ st.2.length ≤ 3 then
        match st.1 with
        | [] => [st.2]
        | r :: rs => (r ++ st.2) :: rs
      else st.2 :: st.1
  rRev.reverse

/-- An emitted Segment (lines 154–159). -/
structure Segment where
  start : ℚ
  stop : ℚ
  text : String
  words : List Word
deriving DecidableEq, Repr

/-- Models `seg_text` (lines 150–153): each word's displayed form, stripped, with
ASCII spaces removed, concatenated. -/
def segText (g : List Word) : String :=
  g.foldl
    (fun a w => a ++ String.mk ((stripChars w.text.data).filter (fun c => !(c == ' '))))
    ""

def mkSegment (g : List Word) : Segment :=
  ⟨(g.headD defaultWord).start, (g.getLastD defaultWord).stop, segText g, g⟩

/-- Models `prepare_japanese_segments` (lines 84–165), segment list only (the
returned transcript string is not modelled; no claim concerns it).
Grouping from utterance hints when present (Python `if utterances:`) else
the word-level fallback; merge pass; split pass with `MAX_WORDS = 20`;
empty groups are skipped when building segments. -/
def prepare_japanese_segments (all_words : List Word) (utterances : List Utt) :
    List Segment :=
  if all_words = [] then []
  else
    let word_groups :=
      if utterances = [] then groups_from_words_fallback all_words
      else groups_from_utterances utterances all_words
    let merged := mergePass word_groups
    let final_groups :=
      merged.flatMap (fun g => if g.length ≤ 20 then [g] else split_long_group g 20)
    final_groups.filterMap (fun g => if g = [] then none else some (mkSegment g))

/-- The concatenation of all emitted segments' word slices. -/
def segsWords (segs : List Segment) : List Word :=
  (segs.map (fun s => s.words)).flatten

example :
    (prepare_japanese_segments
      [⟨"あ", 0, 1⟩, ⟨"い", 1, 2⟩, ⟨"う", 2, 3⟩, ⟨"え。", 3, 4⟩, ⟨"お", 4, 5⟩]
      []).map (fun s => s.words.length) = [5] := by decide

/-! ### Conservation lemmas for the Segmenter -/

theorem consumeUtt_sublist (a b : ℚ) :
    ∀ ws : List Word,
      List.Sublist ((consumeUtt a b ws).1 ++ (consumeUtt a b ws).2) ws := by
  intro ws
  induction ws with
  | nil => simp [consumeUtt]
  | cons w rest ih =>
    simp only [consumeUtt]
    split
    · simpa using List.Sublist.cons₂ w ih
    · split
      · simp
      · exact ih.cons w

theorem groupsFromUttsAux_sublist :
    ∀ (us : List Utt) (ws : List Word),
      List.Sublist (groupsFromUttsAux us ws).flatten ws := by
  intro us
  induction us with
  | nil =>
    intro ws
    simp only [groupsFromUttsAux]
    split
    · simp
    · simp
  | cons u us ih =>
    intro ws
    simp only [groupsFromUttsAux]
    have hcons := consumeUtt_sublist u.start u.stop ws
    split
    · rename_i hnil
      refine List.Sublist.trans (ih _) ?_
      rw [hnil] at hcons
      simpa using hcons
    · refine List.Sublist.trans ?_ hcons
      simp only [List.flatten_cons]
      exact (ih _).append_left _

theorem fallbackAux_flatten :
    ∀ (ws cur : List Word), (fallbackAux ws cur).flatten = cur ++ ws := by
  intro ws
  induction ws with
  | nil =>
    intro cur
    simp only [fallbackAux]
    split
    · rename_i h; simp [h]
    · simp
  | cons w rest ih =>
    intro cur
    simp only [fallbackAux]
    split
    · simp [ih]
    · simp [ih]

theorem mergeStep_flatten (st : List (List Word) × List Word) (g : List Word) :
    (mergeStep st g).1.reverse.flatten ++ (mergeStep st g).2 =
      st.1.reverse.flatten ++ st.2 ++ g := by
  rcases st with ⟨m, c⟩
  simp only [mergeStep]
  by_cases hlen : (c ++ g).length ≤ 3
  · rw [if_pos hlen]
    cases m with
    | nil => simp
    | cons x xs => simp [List.append_assoc]
  · rw [if_neg hlen]
    simp [List.append_assoc]

theorem mergeFold_flatten :
    ∀ (gs : List (List Word)) (st : List (List Word) × List Word),
      ((gs.foldl mergeStep st).1).reverse.flatten ++ (gs.foldl mergeStep st).2 =
        st.1.reverse.flatten ++ st.2 ++ gs.flatten := by
  intro gs
  induction gs with
  | nil => intro st; simp
  | cons g rest ih =>
    intro st
    simp only [List.foldl_cons, List.flatten_cons]
    rw [ih (mergeStep st g), mergeStep_flatten]
    simp [List.append_assoc]

theorem mergePass_flatten (gs : List (List Word)) :
    (mergePass gs).flatten = gs.flatten := by
  have h := mergeFold_flatten gs ([], [])
  simp only [List.reverse_nil, List.flatten_nil, List.nil_append] at h
  simp only [mergePass]
  generalize hst : gs.foldl mergeStep ([], []) = st at h ⊢
  rcases st with ⟨m, c⟩
  simp only [] at h ⊢
  by_cases hc : c = []
  · rw [if_pos hc]
    rw [hc] at h
    simpa using h
  · rw [if_neg hc]
    cases m with
    | nil => simpa using h
    | cons x xs =>
      simp only [List.reverse_cons, List.flatten_append, List.flatten_cons,
        List.flatten_nil, List.append_nil, List.append_assoc] at h ⊢
      exact h

theorem splitStep_flatten (mw : Nat) (st : List (List Word) × List Word) (w : Word) :
    (splitStep mw st w).1.reverse.flatten ++ (splitStep mw st w).2 =
      st.1.reverse.flatten ++ st.2 ++ [w] := by
  rcases st with ⟨r, c⟩
  simp only [splitStep]
  split
  · simp [List.append_assoc]
  · simp [List.append_assoc]

theorem splitFold_flatten (mw : Nat) :
    ∀ (ws : List Word) (st : List (List Word) × List Word),
      ((ws.foldl (splitStep mw) st).1).reverse.flatten ++ (ws.foldl (splitStep mw) st).2 =
        st.1.reverse.flatten ++ st.2 ++ ws := by
  intro ws
  induction ws with
  | nil => intro st; simp
  | cons w rest ih =>
    intro st
    simp only [List.foldl_cons]
    rw [ih (splitStep mw st w), splitStep_flatten]
    simp [List.append_assoc]

theorem split_long_group_flatten (ws : List Word) (mw : Nat) :
    (split_long_group ws mw).flatten = ws := by
  have h := splitFold_flatten mw ws ([], [])
  simp only [List.reverse_nil, List.flatten_nil, List.nil_append] at h
  simp only [split_long_group]
  generalize hst : ws.foldl (splitStep mw) ([], []) = st at h ⊢
  rcases st with ⟨r, c⟩
  simp only [] at h ⊢
  by_cases hc : c = []
  · rw [if_pos hc]
    rw [hc] at h
    simpa using h
  · rw [if_neg hc]
    by_cases hr : r ≠ [] ∧ c.length ≤ 3
    · rw [if_pos hr]
      cases r with
      | nil => exact absurd rfl hr.1
      | cons x xs =>
        simp only [List.reverse_cons, List.flatten_append, List.flatten_cons,
          List.flatten_nil, List.append_nil, List.append_assoc] at h ⊢
        exact h
    · rw [if_neg hr]
      simp only [List.reverse_cons, List.flatten_append, List.flatten_cons,
        List.flatten_nil, List.append_nil, List.append_assoc] at h ⊢
      exact h

theorem finalGroups_flatten (gs : List (List Word)) :
    (gs.flatMap (fun g => if g.length ≤ 20 then [g] else split_long_group g 20)).flatten
      = gs.flatten := by
  induction gs with
  | nil => simp
  | cons g rest ih =>
    simp only [List.flatMap_cons, List.flatten_append, List.flatten_cons, ih]
    congr 1
    split
    · simp
    · exact split_long_group_flatten g 20

theorem segsWords_filterMap (gs : List (List Word)) :
    segsWords (gs.filterMap (fun g => if g = [] then none else some (mkSegment g)))
      = gs.flatten := by
  induction gs with
  | nil => simp [segsWords]
  | cons g rest ih =>
    simp only [List.filterMap_cons]
    split
    · rename_i hnone
      have hg : g = [] := by
        by_cases h : g = []
        · exact h
        · simp [h] at hnone
      rw [hg]
      simpa using ih
    · rename_i s hsome
      have hs : s = mkSegment g := by
        by_cases h : g = []
        · simp [h] at hsome
        · simp [h] at hsome; exact hsome.symm
      subst hs
      simp only [segsWords, List.map_cons, List.flatten_cons] at *
      rw [ih]
      rfl

/-! ### C2 — word conservation -/

theorem prepare_segsWords (aw : List Word) (us : List Utt) (h : aw ≠ []) :
    segsWords (prepare_japanese_segments aw us) =
      (if us = [] then groups_from_words_fallback aw
       else groups_from_utterances us aw).flatten := by
  simp only [prepare_japanese_segments, if_neg h]
  rw [segsWords_filterMap, finalGroups_flatten, mergePass_flatten]

/-- C2 counterexample: with an utterance hint starting more than 50ms after
the only word's start, the word is silently dropped — the Segmenter emits
nothing, so `sum(len(segment.words)) = 0 ≠ 1 = len(input words)`. -/
theorem c2_counterexample :
    prepare_japanese_segments [⟨"あ", 0, 1/2⟩] [⟨1, 2⟩] = [] ∧
    ((prepare_japanese_segments [⟨"あ", 0, 1/2⟩] [⟨1, 2⟩]).map
      (fun s => s.words.length)).sum = 0 ∧
    ([⟨"あ", 0, 1/2⟩] : List Word).length = 1 := by
  with_unfolding_all decide

/-- C2 amended: the concatenation of the Segmenter's output word slices is
always an order-preserving selection (sublist — no duplication, no
reordering) of the input words; *without* utterance hints it is exactly the
input (full conservation). With hints, words whose start time falls outside
every hint interval (±50ms) and not after the last hint are dropped, so
only the sublist relation holds. -/
theorem c2_word_conservation (all_words : List Word) (utterances : List Utt) :
    List.Sublist (segsWords (prepare_japanese_segments all_words utterances))
      all_words ∧
    (utterances = [] →
      segsWords (prepare_japanese_segments all_words utterances) = all_words) := by
  by_cases haw : all_words = []
  · subst haw
    simp [prepare_japanese_segments, segsWords]
  · rw [prepare_segsWords all_words utterances haw]
    constructor
    · split
      · simp [groups_from_words_fallback, fallbackAux_flatten]
      · exact groupsFromUttsAux_sublist utterances all_words
    · intro hu
      rw [if_pos hu]
      simp [groups_from_words_fallback, fallbackAux_flatten]

/-- C2 witness: exact conservation on a concrete hint-free input. -/
theorem c2_word_conservation_witness :
    segsWords (prepare_japanese_segments [⟨"あ", 0, 1⟩] []) = [⟨"あ", 0, 1⟩] :=
  (c2_word_conservation [⟨"あ", 0, 1⟩] []).2 rfl

/-! ### C3 — segment size cap -/

theorem split_long_group_bound (ws : List Word) :
    ∀ g ∈ split_long_group ws 20, g.length ≤ 23 := by
  have hinv := foldl_inv (fun st : List (List Word) × List Word =>
      (∀ g ∈ st.1, g.length ≤ 20) ∧ st.2.length ≤ 19)
    (splitStep 20) ws ([], []) (by simp)
    (by
      intro st w _ hst
      rcases st with ⟨r, c⟩
      obtain ⟨hr, hc⟩ := hst
      dsimp only at hr hc
      simp only [splitStep]
      split
      · constructor
        · intro g hg
          rcases List.mem_cons.mp hg with hg' | hg'
          · subst hg'
            simp only [List.length_append, List.length_singleton]
            omega
          · exact hr g hg'
        · simp
      · rename_i hncut
        constructor
        · exact hr
        · simp only [not_or, not_le] at hncut
          simp only [List.length_append, List.length_singleton] at *
          omega)
  intro g hg
  simp only [split_long_group] at hg
  generalize hfold : ws.foldl (splitStep 20) ([], []) = st at hg hinv
  rcases st with ⟨r, c⟩
  obtain ⟨hr, hc⟩ := hinv
  simp only [] at hg hr hc
  rw [List.mem_reverse] at hg
  by_cases hce : c = []
  · rw [if_pos hce] at hg
    have := hr g hg
    omega
  · rw [if_neg hce] at hg
    by_cases hcond : r ≠ [] ∧ c.length ≤ 3
    · rw [if_pos hcond] at hg
      cases r with
      | nil => exact absurd rfl hcond.1
      | cons x xs =>
        rcases List.mem_cons.mp hg with hg' | hg'
        · subst hg'
          have hx := hr x (by simp)
          simp only [List.length_append]
          omega
        · have := hr g (by simp [hg'])
          omega
    · rw [if_neg hcond] at hg
      rcases List.mem_cons.mp hg with hg' | hg'
      · subst hg'; omega
      · have := hr g hg'
        omega

/-- C3 counterexample: the claim's 20-word cap and "repeated exact
MAX_WORDS hard cuts" both fail. 23 words with no punctuation anywhere
produce a *single* 23-word segment: the hard cut at 20 leaves a 3-word
tail, which `_split_long_group` folds back into the previous sub-group
(lines 229–232). -/
theorem c3_counterexample :
    (prepare_japanese_segments (List.replicate 23 ⟨"あ", 0, 1⟩) []).map
      (fun s => s.words.length) = [23] ∧
    ¬ (23 ≤ 20) ∧
    (∀ w ∈ List.replicate 23 (⟨"あ", 0, 1⟩ : Word),
      splitPunct w = false ∧ sentencePunct w = false) := by
  set_option maxRecDepth 8000 in decide

/-- C3 amended: every Segment emitted by the Segmenter contains at most
`MAX_WORDS + MIN_FRAGMENT = 23` words: hard cuts happen at exactly 20
words, but a trailing sub-fragment of ≤ 3 words is folded into the previous
cut, which may therefore grow to 23. -/
theorem c3_segment_cap (all_words : List Word) (utterances : List Utt) :
    ∀ s ∈ prepare_japanese_segments all_words utterances,
      s.words.length ≤ 23 := by
  intro s hs
  by_cases haw : all_words = []
  · rw [haw] at hs
    simp [prepare_japanese_segments] at hs
  · simp only [prepare_japanese_segments, if_neg haw] at hs
    rw [List.mem_filterMap] at hs
    obtain ⟨g, hg, hsome⟩ := hs
    have hsg : s.words = g := by
      by_cases h : g = []
      · simp [h] at hsome
      · simp only [if_neg h, Option.some.injEq] at hsome
        rw [← hsome]
        rfl
    rw [hsg]
    rw [List.mem_flatMap] at hg
    obtain ⟨h0, _, hmem⟩ := hg
    by_cases hlen : h0.length ≤ 20
    · rw [if_pos hlen] at hmem
      simp only [List.mem_singleton] at hmem
      subst hmem
      omega
    · rw [if_neg hlen] at hmem
      exact split_long_group_bound h0 g hmem

/-- C3 amended witness: a concrete emitted segment obeys the 23-word cap. -/
theorem c3_segment_cap_witness :
    mkSegment [⟨"あ", 0, 1⟩] ∈ prepare_japanese_segments [⟨"あ", 0, 1⟩] [] ∧
    (mkSegment [⟨"あ", 0, 1⟩]).words.length ≤ 23 :=
  ⟨by decide, c3_segment_cap [⟨"あ", 0, 1⟩] [] _ (by decide)⟩

/-! ### C7 — merge pass direction -/

/-- C7: evaluating the merge pass at the failing input. With groups of
sizes 5, 2, 4, the code appends the 2-word group to the *previous* emitted
group (`merged[-1].extend(combined)`, line 125), producing sizes [7, 4] —
not to the *next* group as the claim (and the function's own docstring,
"Merge tiny utterances (≤3 words) into the next one", line 91) states,
which would produce sizes [5, 6]. -/
theorem c7_merge_attaches_previous :
    mergePass [[⟨"一",0,1⟩,⟨"二",1,2⟩,⟨"三",2,3⟩,⟨"四",3,4⟩,⟨"五",4,5⟩],
      [⟨"六",5,6⟩,⟨"七",6,7⟩],
      [⟨"八",7,8⟩,⟨"九",8,9⟩,⟨"十",9,10⟩,⟨"百",10,11⟩]] =
      [[⟨"一",0,1⟩,⟨"二",1,2⟩,⟨"三",2,3⟩,⟨"四",3,4⟩,⟨"五",4,5⟩,⟨"六",5,6⟩,⟨"七",6,7⟩],
        [⟨"八",7,8⟩,⟨"九",8,9⟩,⟨"十",9,10⟩,⟨"百",10,11⟩]] ∧
    mergePass [[⟨"一",0,1⟩,⟨"二",1,2⟩,⟨"三",2,3⟩,⟨"四",3,4⟩,⟨"五",4,5⟩],
      [⟨"六",5,6⟩,⟨"七",6,7⟩],
      [⟨"八",7,8⟩,⟨"九",8,9⟩,⟨"十",9,10⟩,⟨"百",10,11⟩]] ≠
      [[⟨"一",0,1⟩,⟨"二",1,2⟩,⟨"三",2,3⟩,⟨"四",3,4⟩,⟨"五",4,5⟩],
        [⟨"六",5,6⟩,⟨"七",6,7⟩,⟨"八",7,8⟩,⟨"九",8,9⟩,⟨"十",9,10⟩,⟨"百",10,11⟩]] := by
  decide

/-! ### lib/analysis.py lines 242–271 — `extract_words_for_sync` (Time Remapper) -/

/-- Models `remap` as the spec names it (§4.4): `max(0, t / speedFactor - offset)`.
The source inlines this formula per field. -/
def remap (t speedFactor offset : ℚ) : ℚ := max 0 (t / speedFactor - offset)

/-- Models `extract_words_for_sync` (lines 242–271): `adj = 1.0 / speed_factor`;
each word maps to `{text, max(0, start*adj - offset),
max(0.01, end*adj - offset)}`. A zero `speed_factor` raises
`ZeroDivisionError` in Python, caught by the function's `except` which
returns `[]`; floats are modelled as exact rationals. -/
def extract_words_for_sync (raw_words : List Word)
    (speed_factor time_offset : ℚ) : List Word :=
  if speed_factor = 0 then []
  else
    raw_words.map (fun w =>
      ⟨w.text, max 0 (w.start * (1 / speed_factor) - time_offset),
        max (1/100) (w.stop * (1 / speed_factor) - time_offset)⟩)

/-- C6 counterexample: the claim's numeric example is wrong.
`remap(1.0, 0.75, 0.3) = 1/0.75 - 0.3 = 31/30 ≈ 1.0333`, not ≈ 0.7333 —
it exceeds 0.7333 by more than 0.25. -/
theorem c6_counterexample :
    remap 1 (3/4) (3/10) = 31/30 ∧
    (7333/10000 : ℚ) + 1/4 < remap 1 (3/4) (3/10) := by
  have h : remap 1 (3/4) (3/10) = 31/30 := by
    unfold remap
    rw [max_eq_right (by norm_num : (0 : ℚ) ≤ 1 / (3/4) - 3/10)]
    norm_num
  exact ⟨h, by rw [h]; norm_num⟩

/-- C6 amended: for `speedFactor ≠ 0`, every word's `start` becomes
`remap(start, f, o) = max(0, start/f - o)` and every word's `end` becomes
`max(0.01, remap(end, f, o))` — i.e. remapped then floored at 0.01, with
`start` floored at 0 — and `remap(1.0, 0.75, 0.3) = 31/30 ≈ 1.0333` (the
claim's value 0.7333 is corrected). -/
theorem c6_remap_applied (ws : List Word) (f o : ℚ) (hf : f ≠ 0) :
    extract_words_for_sync ws f o =
      ws.map (fun w => (⟨w.text, remap w.start f o,
        max (1/100) (remap w.stop f o)⟩ : Word)) ∧
    remap 1 (3/4) (3/10) = 31/30 := by
  constructor
  · simp only [extract_words_for_sync, if_neg hf]
    apply List.map_congr_left
    intro w _
    have hstart : w.start * (1 / f) = w.start / f := by ring
    have hstop : w.stop * (1 / f) = w.stop / f := by ring
    have hmax : max (1/100 : ℚ) (w.stop / f - o) =
        max (1/100) (remap w.stop f o) := by
      unfold remap
      rw [← max_assoc, max_eq_left (by norm_num : (0 : ℚ) ≤ 1/100)]
    rw [hstart, hstop, hmax]
    rfl
  · unfold remap
    rw [max_eq_right (by norm_num : (0 : ℚ) ≤ 1 / (3/4) - 3/10)]
    norm_num

/-- C6 amended witness: concrete application at the default parameters. -/
theorem c6_remap_applied_witness :
    ((3/4 : ℚ) ≠ 0) ∧
    (extract_words_for_sync [⟨"あ", 1, 2⟩] (3/4) (3/10) =
        ([⟨"あ", 1, 2⟩] : List Word).map (fun w => (⟨w.text, remap w.start (3/4) (3/10),
          max (1/100) (remap w.stop (3/4) (3/10))⟩ : Word)) ∧
      remap 1 (3/4) (3/10) = 31/30) :=
  ⟨by norm_num, c6_remap_applied [⟨"あ", 1, 2⟩] (3/4) (3/10) (by norm_num)⟩

/-! ### lib/analysis.py lines 625–698 — `collect_vocab_with_kanji` -/

/-- A VocabEntry record as stored in `vocab_map` (lines 687–698). -/
structure VocabEntry where
  kanji : String
  romaji : String
  meaning : String
  kanjiReadings : List (String × String)
  start : Option ℚ
  stop : Option ℚ
deriving DecidableEq, Repr

/-- A word record of the analysis JSON used by the vocab collector
(lines 661–668). -/
structure WordInfo where
  japanese : String
  kanji : String
  romaji : String
  meaning : String
deriving DecidableEq, Repr

/-- Python dict read `vocab_map.get(surf)` over the association-list model. -/
def lookupMap (vm : List (String × VocabEntry)) (k : String) : Option VocabEntry :=
  (vm.find? (fun p => p.1 == k)).map (fun p => p.2)

/-- Python dict write `vocab_map[surf] = v`: replace in place if the key
exists, else append (insertion order preserved). -/
def mapSet (vm : List (String × VocabEntry)) (k : String) (v : VocabEntry) :
    List (String × VocabEntry) :=
  if vm.any (fun p => p.1 == k) then
    vm.map (fun p => if p.1 == k then (k, v) else p)
  else vm ++ [(k, v)]

/-- The micro-window discard (lines 680–682): a resolved window shorter
than 0.15s is dropped (`start = end = None`). -/
def microDiscard (r : Option (ℚ × ℚ)) : Option (ℚ × ℚ) :=
  match r with
  | some (s, e) => if e - s < 3/20 then none else some (s, e)
  | none => none

/-- The new entry written on lines 687–698. -/
def mkVocabEntry (w : WordInfo) (rd : List (String × String))
    (t : Option (ℚ × ℚ)) : VocabEntry :=
  ⟨w.kanji, w.romaji, w.meaning, rd, t.map (fun p => p.1), t.map (fun p => p.2)⟩

/-- Modelled from the spec (external library `rapidfuzz.process.extractOne`
with `fuzz.ratio`): the key with the highest similarity, first wins on
ties. -/
def extractOneBest (k : String) (keys : List String) : Option (String × ℚ) :=
  keys.foldl
    (fun acc key =>
      let sc := ratio k.data key.data
      match acc with
      | none => some (key, sc)
      | some (_, bs) => if bs < sc then some (key, sc) else acc)
    none

/-- Timing resolution for one surface form (lines 669–678): exact lookup by
normalized key, else best fuzzy key with similarity ≥ 90. -/
def resolveTiming (lookup : List (String × ℚ × ℚ)) (k : String) :
    Option (ℚ × ℚ) :=
  match (lookup.find? (fun p => p.1 == k)).map (fun p => p.2) with
  | some v => some v
  | none =>
    match extractOneBest k (lookup.map (fun p => p.1)) with
    | some (hit, sc) =>
      if 90 ≤ sc then (lookup.find? (fun p => p.1 == hit)).map (fun p => p.2)
      else none
    | none => none

/-- The per-word body of the vocab loop (lines 661–698): skip words without
kanji or surface; discard micro-windows; then the guarded map update
`if surf not in vocab_map or (start is not None and
vocab_map[surf].get("start") is None)`. `timing` is the window resolved via
`resolveTiming` (kept as a parameter so the update rule is stated for every
resolution outcome). -/
def collect_vocab_update (vm : List (String × VocabEntry)) (w : WordInfo)
    (rd : List (String × String)) (timing : Option (ℚ × ℚ)) :
    List (String × VocabEntry) :=
  if w.kanji = "" ∨ w.japanese = "" then vm
  else
    let t := microDiscard timing
    match lookupMap vm w.japanese with
    | none => mapSet vm w.japanese (mkVocabEntry w rd t)
    | some old =>
      if t.isSome ∧ old.start = none then mapSet vm w.japanese (mkVocabEntry w rd t)
      else vm

theorem mapSet_cons_ne (x : String × VocabEntry) (rest : List (String × VocabEntry))
    (k : String) (v : VocabEntry) (h : (x.1 == k) = false) :
    mapSet (x :: rest) k v = x :: mapSet rest k v := by
  by_cases ha : rest.any (fun p => p.1 == k)
  · simp only [mapSet, List.any_cons, h, Bool.false_or, ha, if_true, List.map_cons]
    simp
  · simp only [mapSet, List.any_cons, h, Bool.false_or]
    rw [if_neg (by simpa using ha), if_neg (by simpa using ha)]
    simp

theorem lookupMap_mapSet (vm : List (String × VocabEntry)) (k : String)
    (v : VocabEntry) : lookupMap (mapSet vm k v) k = some v := by
  induction vm with
  | nil => simp [mapSet, lookupMap]
  | cons x rest ih =>
    by_cases hx : (x.1 == k) = true
    · have hmap : mapSet (x :: rest) k v =
          (k, v) :: rest.map (fun p => if p.1 == k then (k, v) else p) := by
        simp only [mapSet, List.any_cons, hx, Bool.true_or, if_true, List.map_cons]
      rw [hmap]
      simp [lookupMap, List.find?_cons]
    · have hx' : (x.1 == k) = false := by simpa using hx
      rw [mapSet_cons_ne x rest k v hx']
      simp only [lookupMap, List.find?_cons, hx']
      exact ih

/-- C8: every update of the VocabEntry map obeys the timing-wins rule
(lines 684–698): a new surface form is inserted with whatever timing
survived the micro-window discard (possibly none); an existing entry
without timing is overwritten when the new occurrence has timing; and an
existing entry that already has timing is never modified. -/
theorem c8_timing_wins (vm : List (String × VocabEntry)) (w : WordInfo)
    (rd : List (String × String)) (t : Option (ℚ × ℚ))
    (hk : w.kanji ≠ "") (hj : w.japanese ≠ "") :
    (lookupMap vm w.japanese = none →
      lookupMap (collect_vocab_update vm w rd t) w.japanese =
        some (mkVocabEntry w rd (microDiscard t))) ∧
    (∀ old, lookupMap vm w.japanese = some old → old.start = none →
      (microDiscard t).isSome →
      lookupMap (collect_vocab_update vm w rd t) w.japanese =
        some (mkVocabEntry w rd (microDiscard t))) ∧
    (∀ old, lookupMap vm w.japanese = some old → old.start ≠ none →
      collect_vocab_update vm w rd t = vm) := by
  have hguard : ¬(w.kanji = "" ∨ w.japanese = "") := by
    intro hc
    rcases hc with hc | hc
    · exact hk hc
    · exact hj hc
  refine ⟨?_, ?_, ?_⟩
  · intro hnone
    simp only [collect_vocab_update, if_neg hguard, hnone]
    exact lookupMap_mapSet vm w.japanese _
  · intro old hsome hold ht
    simp only [collect_vocab_update, if_neg hguard, hsome]
    rw [if_pos ⟨ht, hold⟩]
    exact lookupMap_mapSet vm w.japanese _
  · intro old hsome hold
    simp only [collect_vocab_update, if_neg hguard, hsome]
    rw [if_neg (by intro hc; exact hold hc.2)]

/-- C8 witness: an entry that already has timing is untouched by a later
occurrence that also resolves timing. -/
theorem c8_timing_wins_witness :
    lookupMap [("朝", ⟨"朝", "asa", "아침", [], some 1, some 2⟩)] "朝" =
      some ⟨"朝", "asa", "아침", [], some 1, some 2⟩ ∧
    collect_vocab_update [("朝", ⟨"朝", "asa", "아침", [], some 1, some 2⟩)]
      ⟨"朝", "朝", "asa", "아침"⟩ [] (some (5, 6)) =
      [("朝", ⟨"朝", "asa", "아침", [], some 1, some 2⟩)] :=
  ⟨by decide,
    (c8_timing_wins [("朝", ⟨"朝", "asa", "아침", [], some 1, some 2⟩)]
        ⟨"朝", "朝", "asa", "아침"⟩ [] (some (5, 6)) (by decide) (by decide)).2.2
      ⟨"朝", "asa", "아침", [], some 1, some 2⟩ (by decide) (by decide)⟩
